import Mathlib

/-!
Verification of the pyham orthology-mapping core against its specification.

The taxonomy tree (an ete3 tree in the source) is embedded as an arena of
nodes addressed by natural-number indices, each node holding an optional
parent index; a tree is valid when every parent index is strictly smaller
than its child's index, so node 0 is the only possible root.  The pure
functions of `pyham/taxonomy.py` and `ham/genome.py` are translated
directly; the stateful methods become explicit state passing where a raised
exception returns the error kind together with the state at the moment of
the raise, so that partial mutation committed before an exception is
observable.
-/

namespace Pyham

/-- Error kinds of the source: Python `TypeError`, the domain-specific
`EvolutionaryConceptError`, and `KeyError`. -/
inductive PErr where
  | typeErr
  | conceptErr
  | keyErr
deriving DecidableEq, Repr

/-- A Python argument position that may receive a value of the wrong
runtime type: `ok a` is a well-typed argument, `badType` any object failing
the `isinstance` check of the callee. -/
inductive Arg (α : Type) where
  | ok (a : α)
  | badType
deriving DecidableEq, Repr

/-! ## Taxonomy tree arena -/

/-- The species tree of `Taxonomy`, as an arena: `par i` is the parent
index of node `i`, `none` for the root. -/
structure TaxTree where
  par : Nat → Option Nat

/-- A tree is valid when parent indices strictly decrease, which makes the
parent-walk terminate. -/
def TaxTree.Valid (t : TaxTree) : Prop :=
  ∀ i p, t.par i = some p → p < i

/-- Fuel-indexed parent chain: the ancestors of `n` listed from the direct
parent upward. -/
def ancChainAux (par : Nat → Option Nat) : Nat → Nat → List Nat
  | 0, _ => []
  | fuel + 1, n =>
    match par n with
    | none => []
    | some p => p :: ancChainAux par fuel p

/-- Embedding of ete3's `iter_ancestors` on node `n`: the parent chain of
`n` from the direct parent up to the root, the node itself excluded. -/
def TaxTree.iter_ancestors (t : TaxTree) (n : Nat) : List Nat :=
  ancChainAux t.par n n

/-- A node `a` is a strict ancestor of `n` when it occurs on `n`'s parent
chain. -/
def TaxTree.isStrictAncestor (t : TaxTree) (a n : Nat) : Prop :=
  a ∈ t.iter_ancestors n

instance (t : TaxTree) (a n : Nat) : Decidable (t.isStrictAncestor a n) := by
  unfold TaxTree.isStrictAncestor
  infer_instance

/-- Embedding of `Taxonomy.get_path_up` (`pyham/taxonomy.py`): iterate over
the ancestors of `lowest_node`, stop (break) at `ancestor_node`, and return
the nodes accumulated before the break, most recent first. -/
def TaxTree.get_path_up (t : TaxTree) (lowest_node ancestor_node : Nat) : List Nat :=
  (t.iter_ancestors lowest_node).takeWhile (fun tax => tax != ancestor_node)

/-- The chain of a node without a parent is empty at every fuel. -/
theorem ancChainAux_nil {t : TaxTree} {n : Nat} (hp : t.par n = none) :
    ∀ fuel, ancChainAux t.par fuel n = [] := by
  intro fuel
  cases fuel with
  | zero => rfl
  | succ f => simp only [ancChainAux, hp]

/-- The fuel of the ancestor chain is irrelevant once it is at least the
node index, because parent indices strictly decrease. -/
theorem ancChainAux_canon {t : TaxTree} (hv : t.Valid) :
    ∀ fuel n, n ≤ fuel → ancChainAux t.par fuel n = t.iter_ancestors n := by
  intro fuel
  induction fuel using Nat.strong_induction_on with
  | _ fuel ih =>
    intro n h
    cases hp : t.par n with
    | none =>
      rw [ancChainAux_nil hp, TaxTree.iter_ancestors, ancChainAux_nil hp]
    | some p =>
      have hlt : p < n := hv _ _ hp
      cases fuel with
      | zero => omega
      | succ f =>
        cases n with
        | zero => omega
        | succ m =>
          simp only [TaxTree.iter_ancestors, ancChainAux, hp]
          rw [ih f (by omega) p (by omega), ih m (by omega) p (by omega)]

/-- Unfolding of the ancestor chain at a node with a parent. -/
theorem iter_ancestors_cons {t : TaxTree} (hv : t.Valid) {n p : Nat}
    (hp : t.par n = some p) :
    t.iter_ancestors n = p :: t.iter_ancestors p := by
  have hlt : p < n := hv _ _ hp
  cases n with
  | zero => omega
  | succ m =>
    show ancChainAux t.par (m + 1) (m + 1) = _
    simp only [ancChainAux, hp]
    rw [ancChainAux_canon hv m p (by omega)]
/-- The ancestor chain of the root (or of any node without a parent) is
empty. -/
theorem iter_ancestors_nil {t : TaxTree} {n : Nat} (hp : t.par n = none) :
    t.iter_ancestors n = [] := by
  unfold TaxTree.iter_ancestors
  cases n with
  | zero => rfl
  | succ n => simp only [ancChainAux, hp]

/-- Every node on the ancestor chain has a strictly smaller index. -/
theorem mem_iter_ancestors_lt {t : TaxTree} (hv : t.Valid) :
    ∀ n x, x ∈ t.iter_ancestors n → x < n := by
  intro n
  induction n using Nat.strong_induction_on with
  | _ n ih =>
    intro x hx
    cases hp : t.par n with
    | none => rw [iter_ancestors_nil hp] at hx; cases hx
    | some p =>
      rw [iter_ancestors_cons hv hp] at hx
      have hpn : p < n := hv _ _ hp
      rcases List.mem_cons.mp hx with h | h
      · omega
      · have := ih p hpn x h
        omega

/-- The ancestor chain of `n` decomposes at any member `a` into the path up
to `a`, then `a`, then `a`'s own ancestor chain. -/
theorem iter_ancestors_decomp {t : TaxTree} (hv : t.Valid) :
    ∀ n a, a ∈ t.iter_ancestors n →
      t.iter_ancestors n = t.get_path_up n a ++ a :: t.iter_ancestors a := by
  intro n
  induction n using Nat.strong_induction_on with
  | _ n ih =>
    intro a ha
    cases hp : t.par n with
    | none => rw [iter_ancestors_nil hp] at ha; cases ha
    | some p =>
      have hcons := iter_ancestors_cons hv hp
      rw [hcons] at ha
      unfold TaxTree.get_path_up
      rw [hcons]
      by_cases hap : a = p
      · subst hap
        rw [List.takeWhile_cons_of_neg (by simp)]
        simp
      · rcases List.mem_cons.mp ha with h | h
        · exact absurd h hap
        · rw [List.takeWhile_cons_of_pos (by simp [Ne.symm, hap])]
          have := ih p (hv _ _ hp) a h
          unfold TaxTree.get_path_up at this
          rw [List.cons_append]
          rw [← this]

/-- Whatever follows an occurrence of `x` on an ancestor chain is exactly
the ancestor chain of `x`. -/
theorem iter_ancestors_suffix {t : TaxTree} (hv : t.Valid) :
    ∀ n l₁ x l₂, t.iter_ancestors n = l₁ ++ x :: l₂ → l₂ = t.iter_ancestors x := by
  intro n
  induction n using Nat.strong_induction_on with
  | _ n ih =>
    intro l₁ x l₂ hdec
    cases hp : t.par n with
    | none =>
      rw [iter_ancestors_nil hp] at hdec
      exact absurd hdec.symm (List.append_ne_nil_of_right_ne_nil l₁ (List.cons_ne_nil x l₂))
    | some p =>
      rw [iter_ancestors_cons hv hp] at hdec
      cases l₁ with
      | nil =>
        simp only [List.nil_append, List.cons.injEq] at hdec
        rw [← hdec.2, hdec.1]
      | cons y l₁ =>
        simp only [List.cons_append, List.cons.injEq] at hdec
        exact ih p (hv _ _ hp) l₁ x l₂ hdec.2

/-- Strict ancestry is transitive along the chain: an ancestor of an
ancestor is an ancestor. -/
theorem isStrictAncestor_trans {t : TaxTree} (hv : t.Valid) {a x n : Nat}
    (hax : t.isStrictAncestor a x) (hxn : t.isStrictAncestor x n) :
    t.isStrictAncestor a n := by
  rcases List.append_of_mem hxn with ⟨l₁, l₂, hdec⟩
  have hl₂ : l₂ = t.iter_ancestors x := iter_ancestors_suffix hv n l₁ x l₂ hdec
  unfold TaxTree.isStrictAncestor
  rw [hdec]
  subst hl₂
  exact List.mem_append_right _ (List.mem_cons_of_mem x hax)

/-- Claim C3.  For every node `n` and strict ancestor `a`, `get_path_up n a`
contains exactly the nodes strictly between `n` and `a` (strict ancestors of
`n` of which `a` is a strict ancestor), excludes both endpoints, and is the
initial segment of the youngest-to-oldest ancestor enumeration of `n` that
stops right before `a`. -/
theorem get_path_up_spec (t : TaxTree) (hv : t.Valid) (n a : Nat)
    (ha : t.isStrictAncestor a n) :
    (∀ x, x ∈ t.get_path_up n a ↔ (t.isStrictAncestor x n ∧ t.isStrictAncestor a x))
    ∧ t.iter_ancestors n = t.get_path_up n a ++ a :: t.iter_ancestors a
    ∧ n ∉ t.get_path_up n a ∧ a ∉ t.get_path_up n a := by
  have hdec := iter_ancestors_decomp hv n a ha
  refine ⟨?_, hdec, ?_, ?_⟩
  · intro x
    constructor
    · intro hx
      have hxch : x ∈ t.iter_ancestors n := by
        rw [hdec]; exact List.mem_append_left _ hx
      refine ⟨hxch, ?_⟩
      rcases List.append_of_mem hx with ⟨u, v, huv⟩
      have : t.iter_ancestors n = u ++ x :: (v ++ a :: t.iter_ancestors a) := by
        rw [hdec, huv]; simp
      have hsuf := iter_ancestors_suffix hv n u x _ this
      unfold TaxTree.isStrictAncestor
      rw [← hsuf]
      exact List.mem_append_right _ (List.mem_cons_self a _)
    · rintro ⟨hxn, hax⟩
      have hxa : x ≠ a := by
        intro hxa
        subst hxa
        exact absurd hax (by
          intro hmem
          exact absurd (mem_iter_ancestors_lt hv x x hmem) (lt_irrefl x))
      have hxn' : x ∈ t.iter_ancestors n := hxn
      rw [hdec] at hxn'
      rcases List.mem_append.mp hxn' with h | h
      · exact h
      · rcases List.mem_cons.mp h with h | h
        · exact absurd h hxa
        · have hx_lt_a : x < a := mem_iter_ancestors_lt hv a x h
          have ha_lt_x : a < x := mem_iter_ancestors_lt hv x a hax
          omega
  · intro hn
    have : n ∈ t.iter_ancestors n := by
      rw [hdec]; exact List.mem_append_left _ hn
    exact absurd (mem_iter_ancestors_lt hv n n this) (lt_irrefl n)
  · intro hmem
    have := List.mem_takeWhile_imp hmem
    simp at this

/-- Witness for C3 on a concrete three-node lineage `3 → 2 → 1 → 0`: the
path from node 3 up to ancestor 1 is `[2]`. -/
theorem get_path_up_spec_witness :
    (TaxTree.Valid ⟨fun i => if i = 0 then none else some (i - 1)⟩
     ∧ TaxTree.isStrictAncestor ⟨fun i => if i = 0 then none else some (i - 1)⟩ 1 3)
    ∧ ((∀ x, x ∈ TaxTree.get_path_up ⟨fun i => if i = 0 then none else some (i - 1)⟩ 3 1 ↔
          (TaxTree.isStrictAncestor ⟨fun i => if i = 0 then none else some (i - 1)⟩ x 3
           ∧ TaxTree.isStrictAncestor ⟨fun i => if i = 0 then none else some (i - 1)⟩ 1 x))
       ∧ TaxTree.iter_ancestors ⟨fun i => if i = 0 then none else some (i - 1)⟩ 3 =
           TaxTree.get_path_up ⟨fun i => if i = 0 then none else some (i - 1)⟩ 3 1
             ++ 1 :: TaxTree.iter_ancestors ⟨fun i => if i = 0 then none else some (i - 1)⟩ 1
       ∧ 3 ∉ TaxTree.get_path_up ⟨fun i => if i = 0 then none else some (i - 1)⟩ 3 1
       ∧ 1 ∉ TaxTree.get_path_up ⟨fun i => if i = 0 then none else some (i - 1)⟩ 3 1) := by
  have hv : TaxTree.Valid ⟨fun i => if i = 0 then none else some (i - 1)⟩ := by
    intro i p h
    by_cases hi : i = 0
    · simp [hi] at h
    · simp [hi] at h
      omega
  have ha : TaxTree.isStrictAncestor ⟨fun i => if i = 0 then none else some (i - 1)⟩ 1 3 := by
    unfold TaxTree.isStrictAncestor TaxTree.iter_ancestors
    simp [ancChainAux]
  exact ⟨⟨hv, ha⟩, get_path_up_spec _ hv 3 1 ha⟩

/-- In a rooted valid tree the ancestor chain of every non-root node ends
at the root, node 0. -/
theorem iter_ancestors_getLast {t : TaxTree} (hv : t.Valid)
    (hroot : ∀ i, t.par i = none ↔ i = 0) :
    ∀ n, n ≠ 0 → (t.iter_ancestors n).getLast? = some 0 := by
  intro n
  induction n using Nat.strong_induction_on with
  | _ n ih =>
    intro hn
    cases hp : t.par n with
    | none => exact absurd ((hroot n).mp hp) hn
    | some p =>
      rw [iter_ancestors_cons hv hp]
      by_cases hp0 : p = 0
      · subst hp0
        rw [iter_ancestors_nil ((hroot 0).mpr rfl)]
        rfl
      · cases hq : t.par p with
        | none => exact absurd ((hroot p).mp hq) hp0
        | some q =>
          have hrec := ih p (hv _ _ hp) hp0
          rw [iter_ancestors_cons hv hq] at hrec ⊢
          rw [List.getLast?_cons_cons]
          exact hrec

/-- Claim C10.  When `ancestor_node` is not an ancestor of `lowest_node`,
`get_path_up` raises nothing and silently returns the whole ancestor chain
of `lowest_node`, youngest first, up to and including the tree root. -/
theorem get_path_up_not_ancestor (t : TaxTree) (hv : t.Valid)
    (hroot : ∀ i, t.par i = none ↔ i = 0)
    (n a : Nat) (hna : ¬ t.isStrictAncestor a n) :
    t.get_path_up n a = t.iter_ancestors n
    ∧ (∀ x, x ∈ t.get_path_up n a ↔ t.isStrictAncestor x n)
    ∧ (n ≠ 0 → (t.get_path_up n a).getLast? = some 0) := by
  have heq : t.get_path_up n a = t.iter_ancestors n := by
    unfold TaxTree.get_path_up
    rw [List.takeWhile_eq_self_iff]
    intro x hx
    simp only [bne_iff_ne, ne_eq]
    intro hxa
    exact hna (hxa ▸ hx)
  refine ⟨heq, ?_, ?_⟩
  · intro x
    rw [heq]
    exact Iff.rfl
  · intro hn
    rw [heq]
    exact iter_ancestors_getLast hv hroot n hn

/-- Witness for C10 on a concrete fork: nodes 1 and 2 are siblings under
root 0; the path up from 1 towards the non-ancestor 2 is the full chain
`[0]`. -/
theorem get_path_up_not_ancestor_witness :
    (TaxTree.Valid ⟨fun i => if i = 0 then none else some 0⟩
     ∧ (∀ i, (TaxTree.par ⟨fun i => if i = 0 then none else some 0⟩) i = none ↔ i = 0)
     ∧ ¬ TaxTree.isStrictAncestor ⟨fun i => if i = 0 then none else some 0⟩ 2 1)
    ∧ (TaxTree.get_path_up ⟨fun i => if i = 0 then none else some 0⟩ 1 2 =
         TaxTree.iter_ancestors ⟨fun i => if i = 0 then none else some 0⟩ 1
       ∧ (∀ x, x ∈ TaxTree.get_path_up ⟨fun i => if i = 0 then none else some 0⟩ 1 2 ↔
            TaxTree.isStrictAncestor ⟨fun i => if i = 0 then none else some 0⟩ x 1)
       ∧ ((1 : Nat) ≠ 0 →
            (TaxTree.get_path_up ⟨fun i => if i = 0 then none else some 0⟩ 1 2).getLast?
              = some 0)) := by
  have hv : TaxTree.Valid ⟨fun i => if i = 0 then none else some 0⟩ := by
    intro i p h
    by_cases hi : i = 0
    · simp [hi] at h
    · simp [hi] at h
      omega
  have hroot : ∀ i, (TaxTree.par ⟨fun i => if i = 0 then none else some 0⟩) i = none ↔ i = 0 := by
    intro i
    by_cases hi : i = 0
    · simp [hi]
    · simp [hi]
  have hna : ¬ TaxTree.isStrictAncestor ⟨fun i => if i = 0 then none else some 0⟩ 2 1 := by
    unfold TaxTree.isStrictAncestor TaxTree.iter_ancestors
    simp [ancChainAux]
  exact ⟨⟨hv, hroot, hna⟩, get_path_up_not_ancestor _ hv hroot 1 2 hna⟩

/-! ## Genome (`ham/genome.py`) -/

/-- The runtime class of a `Genome` object: `ExtantGenome`,
`AncestralGenome`, or a plain `Genome` instance that is neither subclass
(the abstract base has no abstract method, so it is instantiable). -/
inductive GKind where
  | extant
  | ancestral
  | plain
deriving DecidableEq, Repr

/-- State of a `Genome` object: its gene list, its optional taxon node,
its optional name and its runtime class. -/
structure PyGenome where
  kind : GKind
  genes : List Nat
  taxon : Option Nat
  name : Option String
deriving DecidableEq, Repr

/-- State of an `AbstractGene` as `Genome.add_gene` sees it: an identifier
plus the back-reference to the owning genome set by `set_genome`. -/
structure GeneSt where
  id : Nat
  genomeRef : Option Nat
deriving DecidableEq, Repr

/-- Embedding of `Genome.set_taxon`: type-check the argument, reject a
conflicting re-set with `EvolutionaryConceptError`, otherwise store the
taxon.  On error the returned state is the receiver at the moment of the
raise. -/
def set_taxon (g : PyGenome) (arg : Arg Nat) : Except (PErr × PyGenome) PyGenome :=
  match arg with
  | .badType => .error (.typeErr, g)
  | .ok taxon =>
    match g.taxon with
    | some t0 =>
      if taxon ≠ t0 then .error (.conceptErr, g)
      else .ok { g with taxon := some taxon }
    | none => .ok { g with taxon := some taxon }

/-- Embedding of `Genome.add_gene` (`gid` is the owning genome's identity
used by `gene.set_genome(self)`): type-check, then append the gene and set
its genome back-reference. -/
def add_gene (g : PyGenome) (gid : Nat) (arg : Arg GeneSt) :
    Except (PErr × PyGenome) (PyGenome × GeneSt) :=
  match arg with
  | .badType => .error (.typeErr, g)
  | .ok gene =>
    .ok ({ g with genes := g.genes ++ [gene.id] }, { gene with genomeRef := some gid })

/-- The mutable state touched by `Taxonomy.add_genome_to_node`: the target
node's `genome` feature, the genome object, and the taxonomy's `leaves` and
`internal_nodes` trackers. -/
structure AGNState where
  nodeId : Nat
  nodeName : String
  nodeGenomeFeature : Option Unit
  genome : PyGenome
  leaves : List Nat
  internal_nodes : List Nat
deriving DecidableEq, Repr

/-- Embedding of `Taxonomy.add_genome_to_node`, line by line: first
`node.add_feature("genome", genome)`, then `genome.set_taxon(node)`, then
the `isinstance` dispatch whose final `else` raises `TypeError`.  Errors
carry the state at the moment of the raise, so mutations committed by the
earlier lines are visible in it. -/
def add_genome_to_node (s : AGNState) : Except (PErr × AGNState) AGNState :=
  match set_taxon s.genome (.ok s.nodeId) with
  | .error (e, g') =>
    .error (e, { s with nodeGenomeFeature := some (), genome := g' })
  | .ok g' =>
    match g'.kind with
    | .extant =>
      .ok { s with nodeGenomeFeature := some (), genome := g',
                   leaves := s.leaves ++ [s.nodeId] }
    | .ancestral =>
      .ok { s with nodeGenomeFeature := some (),
                   genome := { g' with name := some s.nodeName },
                   internal_nodes := s.internal_nodes ++ [s.nodeId] }
    | .plain =>
      .error (.typeErr, { s with nodeGenomeFeature := some (), genome := g' })

/-- Claim C6.  `Genome.set_taxon` raises `TypeError` on a non-tree-node
argument, raises `EvolutionaryConceptError` when a different taxon is
already set, and is an error-free no-op when called again with the taxon
already stored. -/
theorem set_taxon_spec (g : PyGenome) (taxon : Nat) :
    set_taxon g .badType = .error (.typeErr, g)
    ∧ (∀ t0, g.taxon = some t0 → taxon ≠ t0 →
        set_taxon g (.ok taxon) = .error (.conceptErr, g))
    ∧ (g.taxon = some taxon → set_taxon g (.ok taxon) = .ok g) := by
  refine ⟨rfl, ?_, ?_⟩
  · intro t0 h0 hne
    unfold set_taxon
    rw [h0]
    simp [hne]
  · intro h0
    unfold set_taxon
    rw [h0]
    simp only [ne_eq, not_true_eq_false, if_neg, ite_false]
    cases g
    simp_all

/-- Witness for C6 at a concrete genome already holding taxon 5: a second
`set_taxon` with node 5 is accepted unchanged, with node 7 it raises the
conceptual violation. -/
theorem set_taxon_spec_witness :
    (set_taxon ⟨.extant, [], some 5, none⟩ .badType
       = .error (.typeErr, ⟨.extant, [], some 5, none⟩))
    ∧ ((⟨.extant, [], some 5, none⟩ : PyGenome).taxon = some 5 →
        set_taxon ⟨.extant, [], some 5, none⟩ (.ok 5) = .ok ⟨.extant, [], some 5, none⟩)
    ∧ (set_taxon ⟨.extant, [], some 5, none⟩ (.ok 7)
       = .error (.conceptErr, ⟨.extant, [], some 5, none⟩)) :=
  ⟨(set_taxon_spec ⟨.extant, [], some 5, none⟩ 5).1,
   (set_taxon_spec ⟨.extant, [], some 5, none⟩ 5).2.2,
   (set_taxon_spec ⟨.extant, [], some 5, none⟩ 7).2.1 5 rfl (by decide)⟩

/-- `set_taxon` with a well-typed argument either succeeds or raises the
conceptual violation with the receiver untouched. -/
theorem set_taxon_ok_arg_error {g g' : PyGenome} {taxon : Nat} {e : PErr}
    (h : set_taxon g (.ok taxon) = .error (e, g')) :
    e = .conceptErr ∧ g' = g := by
  unfold set_taxon at h
  cases h0 : g.taxon with
  | none => rw [h0] at h; cases h
  | some t0 =>
    rw [h0] at h
    by_cases hne : taxon = t0
    · simp [hne] at h
    · simp only [ne_eq, hne, not_false_eq_true, if_pos, ite_true, Except.error.injEq,
        Prod.mk.injEq] at h
      exact ⟨h.1.symm, h.2.symm⟩

/-- A successful `set_taxon` stores the argument as the taxon. -/
theorem set_taxon_ok_taxon {g g' : PyGenome} {taxon : Nat}
    (h : set_taxon g (.ok taxon) = .ok g') : g'.taxon = some taxon := by
  unfold set_taxon at h
  cases h0 : g.taxon with
  | none =>
    rw [h0] at h
    cases h
    rfl
  | some t0 =>
    rw [h0] at h
    by_cases hne : taxon = t0
    · simp only [ne_eq, hne, not_true_eq_false, if_neg, ite_false, Except.ok.injEq] at h
      rw [← h]
      simp [hne]
    · simp [hne] at h

/-- Claim C4, counterexample.  `Taxonomy.add_genome_to_node` on a plain
`Genome` instance raises its `TypeError` only after `node.add_feature` and
`genome.set_taxon` have run, so the state carried by the error differs from
the state before the call: partial mutation is committed. -/
theorem add_genome_to_node_counterexample :
    add_genome_to_node ⟨3, "Node", none, ⟨.plain, [], none, none⟩, [], []⟩
      = .error (.typeErr, ⟨3, "Node", some (), ⟨.plain, [], some 3, none⟩, [], []⟩)
    ∧ (⟨3, "Node", some (), ⟨.plain, [], some 3, none⟩, [], []⟩ : AGNState)
      ≠ ⟨3, "Node", none, ⟨.plain, [], none, none⟩, [], []⟩ :=
  ⟨rfl, by decide⟩

/-- Claim C4, amended.  `Genome.set_taxon` and `Genome.add_gene` commit no
mutation when they raise, but `Taxonomy.add_genome_to_node` mutates the
node's `genome` feature (and, on its `TypeError` path, the genome's taxon)
before raising, and those mutations persist. -/
theorem no_partial_mutation_amended :
    (∀ g a e g', set_taxon g a = .error (e, g') → g' = g)
    ∧ (∀ g gid a e g', add_gene g gid a = .error (e, g') → g' = g)
    ∧ (∀ s e s', add_genome_to_node s = .error (e, s') →
        s'.nodeGenomeFeature = some ()
        ∧ (e = PErr.typeErr → s'.genome.taxon = some s.nodeId)) := by
  refine ⟨?_, ?_, ?_⟩
  · intro g a e g' h
    cases a with
    | badType =>
      unfold set_taxon at h
      cases h
      rfl
    | ok taxon => exact (set_taxon_ok_arg_error h).2
  · intro g gid a e g' h
    cases a with
    | badType =>
      unfold add_gene at h
      cases h
      rfl
    | ok gene =>
      unfold add_gene at h
      cases h
  · intro s e s' h
    unfold add_genome_to_node at h
    cases hst : set_taxon s.genome (.ok s.nodeId) with
    | error eg =>
      obtain ⟨e0, g'⟩ := eg
      rw [hst] at h
      simp only [Except.error.injEq, Prod.mk.injEq] at h
      obtain ⟨he, hs⟩ := h
      have hconc := set_taxon_ok_arg_error hst
      subst he hs
      refine ⟨rfl, ?_⟩
      intro he
      rw [hconc.1] at he
      cases he
    | ok g' =>
      rw [hst] at h
      cases hk : g'.kind with
      | extant => simp [hk] at h
      | ancestral => simp [hk] at h
      | plain =>
        simp only [hk, Except.error.injEq, Prod.mk.injEq] at h
        obtain ⟨he, hs⟩ := h
        subst hs
        exact ⟨rfl, fun _ => set_taxon_ok_taxon hst⟩

/-- Witness for the amended C4, at a concrete plain-genome state: the
error state has the node feature set and the taxon committed. -/
theorem no_partial_mutation_amended_witness :
    (⟨3, "Node", some (), ⟨.plain, [], some 3, none⟩, [], []⟩ : AGNState).nodeGenomeFeature
      = some ()
    ∧ (PErr.typeErr = PErr.typeErr →
        (⟨3, "Node", some (), ⟨.plain, [], some 3, none⟩, [], []⟩ : AGNState).genome.taxon
          = some (⟨3, "Node", none, ⟨.plain, [], none, none⟩, [], []⟩ : AGNState).nodeId) :=
  no_partial_mutation_amended.2.2
    ⟨3, "Node", none, ⟨.plain, [], none, none⟩, [], []⟩ .typeErr
    ⟨3, "Node", some (), ⟨.plain, [], some 3, none⟩, [], []⟩ rfl

/-- State of an `AncestralGenome`: the owned top-level HOGs (by identifier)
and the `ancestral_clustering` cache, `none` until first computed. -/
structure AncestralGenome where
  genes : List Nat
  ancestral_clustering : Option (List (Nat × List Nat))
deriving DecidableEq, Repr

/-- Embedding of `AncestralGenome.get_ancestral_clustering`, parametrised
by `descendants`, the `get_all_descendant_genes` query of the gene layer:
on a cold cache build the mapping from each owned HOG to its descendant
genes and store it; on a warm cache return the stored mapping unchanged. -/
def get_ancestral_clustering (descendants : Nat → List Nat) (g : AncestralGenome) :
    (List (Nat × List Nat)) × AncestralGenome :=
  match g.ancestral_clustering with
  | some m => (m, g)
  | none =>
    let m := g.genes.map (fun hog => (hog, descendants hog))
    (m, { g with ancestral_clustering := some m })

/-- Claim C7.  On first call `get_ancestral_clustering` computes the
mapping whose keys are exactly the owned genes and whose values are their
`get_all_descendant_genes`, stores it, and every later call returns the
stored mapping and state untouched without recomputation (the result no
longer depends on the descendant query). -/
theorem get_ancestral_clustering_spec (descendants : Nat → List Nat)
    (g : AncestralGenome) (hcold : g.ancestral_clustering = none) :
    ((get_ancestral_clustering descendants g).1.map Prod.fst = g.genes)
    ∧ (∀ p ∈ (get_ancestral_clustering descendants g).1, p.2 = descendants p.1)
    ∧ ((get_ancestral_clustering descendants g).2.ancestral_clustering
        = some (get_ancestral_clustering descendants g).1)
    ∧ (∀ q : Nat → List Nat,
        get_ancestral_clustering q (get_ancestral_clustering descendants g).2
          = get_ancestral_clustering descendants g) := by
  unfold get_ancestral_clustering
  rw [hcold]
  refine ⟨?_, ?_, rfl, ?_⟩
  · simp only [List.map_map]
    exact List.map_id _
  · intro p hp
    simp only [List.mem_map] at hp
    obtain ⟨hog, _, hph⟩ := hp
    rw [← hph]
  · intro q
    rfl

/-- Witness for C7 on a concrete two-HOG ancestral genome with a cold
cache. -/
theorem get_ancestral_clustering_spec_witness :
    ((⟨[4, 9], none⟩ : AncestralGenome).ancestral_clustering = none)
    ∧ (((get_ancestral_clustering (fun hog => [hog, hog + 1]) ⟨[4, 9], none⟩).1.map Prod.fst
          = (⟨[4, 9], none⟩ : AncestralGenome).genes)
       ∧ (∀ p ∈ (get_ancestral_clustering (fun hog => [hog, hog + 1]) ⟨[4, 9], none⟩).1,
            p.2 = [p.1, p.1 + 1])
       ∧ ((get_ancestral_clustering (fun hog => [hog, hog + 1]) ⟨[4, 9], none⟩).2.ancestral_clustering
            = some (get_ancestral_clustering (fun hog => [hog, hog + 1]) ⟨[4, 9], none⟩).1)
       ∧ (∀ q : Nat → List Nat,
            get_ancestral_clustering q
                (get_ancestral_clustering (fun hog => [hog, hog + 1]) ⟨[4, 9], none⟩).2
              = get_ancestral_clustering (fun hog => [hog, hog + 1]) ⟨[4, 9], none⟩)) :=
  ⟨rfl, get_ancestral_clustering_spec (fun hog => [hog, hog + 1]) ⟨[4, 9], none⟩ rfl⟩

/-! ## Taxonomy name-consistency check (`Taxonomy._check_consistency_names`) -/

/-- A species tree as parsed from newick input: every node carries a name
and a list of children; a node is a leaf when it has no children. -/
inductive STree where
  | node : String → List STree → STree

mutual

/-- Names of the leaves of a species tree, as collected by the traversal of
`_check_consistency_names`. -/
def leafNames : STree → List String
  | .node name children =>
    if children.isEmpty then [name] else leafNamesList children

/-- Leaf names of a forest. -/
def leafNamesList : List STree → List String
  | [] => []
  | c :: cs => leafNames c ++ leafNamesList cs

end

mutual

/-- Names of the internal nodes of a species tree, as collected by the
traversal of `_check_consistency_names`. -/
def intNames : STree → List String
  | .node name children =>
    if children.isEmpty then [] else name :: intNamesList children

/-- Internal-node names of a forest. -/
def intNamesList : List STree → List String
  | [] => []
  | c :: cs => intNames c ++ intNamesList cs

end

/-- Embedding of `Taxonomy._check_consistency_names` on the collected name
lists: the leaf check compares `len(leaf_names)` with `len(set(leaf_names))`,
while the internal check compares `len(set(int_names))` with itself — the
comparison written in the source. -/
def check_consistency_names (leaf_names int_names : List String) : Except PErr Unit :=
  if leaf_names.length ≠ leaf_names.dedup.length then .error .keyErr
  else if int_names.dedup.length ≠ int_names.dedup.length then .error .keyErr
  else .ok ()

/-- A list has as many elements as its dedup exactly when it has no
duplicates. -/
theorem length_eq_dedup_length_iff {l : List String} :
    l.length = l.dedup.length ↔ l.Nodup := by
  constructor
  · intro h
    have hsub : List.Sublist l.dedup l := l.dedup_sublist
    have : l.dedup = l := hsub.eq_of_length h.symm
    rw [← this]
    exact l.nodup_dedup
  · intro h
    rw [List.dedup_eq_self.mpr h]

/-- Claim C9.  The consistency check of `Taxonomy.__init__` raises
`KeyError` exactly when two leaves of the species tree share a name; the
internal-name branch compares a quantity against itself and can never
fire, so duplicate internal names are never rejected. -/
theorem check_consistency_names_spec (t : STree) :
    (check_consistency_names (leafNames t) (intNames t) = .ok () ↔ (leafNames t).Nodup)
    ∧ (check_consistency_names (leafNames t) (intNames t) = .error .keyErr
        ↔ ¬ (leafNames t).Nodup) := by
  by_cases h : (leafNames t).length = (leafNames t).dedup.length
  · have hnodup : (leafNames t).Nodup := length_eq_dedup_length_iff.mp h
    have hok : check_consistency_names (leafNames t) (intNames t) = .ok () := by
      unfold check_consistency_names
      rw [if_neg (by simpa using h), if_neg (by simp)]
    rw [hok]
    simp [hnodup]
  · have hnd : ¬ (leafNames t).Nodup :=
      fun hn => h (length_eq_dedup_length_iff.mpr hn)
    have herr : check_consistency_names (leafNames t) (intNames t) = .error .keyErr := by
      unfold check_consistency_names
      rw [if_pos (by simpa using h)]
    rw [herr]
    simp [hnd]

/-! ## AbstractGene taxon ranges (abstractgene module) -/

/-- Taxon-range state of a terminal `Gene`: a single optional lineage
tag. -/
structure GeneTaxonSt where
  taxon : Option String
deriving DecidableEq, Repr

/-- Taxon-range state of a `HOG`: the set of lineage tags accumulated so
far, modelled as a duplicate-free insertion-ordered list. -/
structure HOGTaxonSt where
  taxon : List String
deriving DecidableEq, Repr

/-- Modelled from the spec: `Gene.set_taxon_range` of the abstractgene
module, which is not under `src/`; per the invariant of spec §3 and the
test `GeneTest.test_cannot_add_multiple_taxon_ranges`, a `Gene` keeps one
tag, re-setting the same value is accepted and a different value raises
`EvolutionaryConceptError`. -/
def geneSetTaxonRange (g : GeneTaxonSt) (tag : String) : Except PErr GeneTaxonSt :=
  match g.taxon with
  | some t0 => if tag ≠ t0 then .error .conceptErr else .ok g
  | none => .ok { taxon := some tag }

/-- Modelled from the spec: `HOG.set_taxon_range` of the abstractgene
module, which is not under `src/`; per spec §4.1 and the test
`HogTest.test_several_taxon_ranges_possible`, a `HOG` accumulates tags
into a set, a tag already present being a no-op, and never raises. -/
def hogSetTaxonRange (h : HOGTaxonSt) (tag : String) : Except PErr HOGTaxonSt :=
  if tag ∈ h.taxon then .ok h else .ok { taxon := h.taxon ++ [tag] }

/-- Claim C5, counterexample.  A `HOG` holding the tag `Primates` accepts
the different tag `Mammalia` without any error and accumulates both, so
the claim that every `AbstractGene` raises a conceptual violation on a
different tag is false. -/
theorem hog_taxon_range_counterexample :
    hogSetTaxonRange ⟨["Primates"]⟩ "Mammalia" = .ok ⟨["Primates", "Mammalia"]⟩
    ∧ "Mammalia" ≠ "Primates" := by
  constructor
  · rfl
  · decide

/-- Claim C5, amended.  A terminal `Gene` raises the conceptual violation
on a conflicting tag and is a no-op on the tag already present; a `HOG`
never raises: a new tag accumulates into its tag set and a present tag is
a no-op. -/
theorem set_taxon_range_spec :
    (∀ g t0 tag, g.taxon = some t0 → tag ≠ t0 →
        geneSetTaxonRange g tag = .error .conceptErr)
    ∧ (∀ g t0, g.taxon = some t0 → geneSetTaxonRange g t0 = .ok g)
    ∧ (∀ h tag, tag ∈ h.taxon → hogSetTaxonRange h tag = .ok h)
    ∧ (∀ h tag, tag ∉ h.taxon → hogSetTaxonRange h tag = .ok ⟨h.taxon ++ [tag]⟩) := by
  refine ⟨?_, ?_, ?_, ?_⟩
  · intro g t0 tag h0 hne
    unfold geneSetTaxonRange
    rw [h0]
    simp [hne]
  · intro g t0 h0
    unfold geneSetTaxonRange
    rw [h0]
    simp
  · intro h tag hmem
    unfold hogSetTaxonRange
    rw [if_pos hmem]
  · intro h tag hmem
    unfold hogSetTaxonRange
    rw [if_neg hmem]

/-- Witness for the amended C5 at the fixture tags of the tests: `test`
conflicts with `bla` on a `Gene`, and `Primates`, `Mammalia` accumulate on
a `HOG`. -/
theorem set_taxon_range_spec_witness :
    (geneSetTaxonRange ⟨some "test"⟩ "bla" = .error .conceptErr)
    ∧ (geneSetTaxonRange ⟨some "test"⟩ "test" = .ok ⟨some "test"⟩)
    ∧ (hogSetTaxonRange ⟨["Primates", "Mammalia"]⟩ "Mammalia" = .ok ⟨["Primates", "Mammalia"]⟩)
    ∧ (hogSetTaxonRange ⟨["Primates"]⟩ "Mammalia" = .ok ⟨["Primates", "Mammalia"]⟩) :=
  ⟨set_taxon_range_spec.1 ⟨some "test"⟩ "test" "bla" rfl (by decide),
   set_taxon_range_spec.2.1 ⟨some "test"⟩ "test" rfl,
   set_taxon_range_spec.2.2.1 ⟨["Primates", "Mammalia"]⟩ "Mammalia" (by decide),
   set_taxon_range_spec.2.2.2 ⟨["Primates"]⟩ "Mammalia" (by decide)⟩

/-! ## HOGsMap construction (mapper module) -/

/-- Modelled from the spec: the input validation of the `HOGsMap`
constructor of the mapper module, which is not under `src/`.  Per spec
§4.3 the input is a set of exactly two genomes (here identified by their
taxonomy nodes; the set is the deduplicated list) whose nodes must be
related by strict ancestry, the older becoming `ancestor` and the younger
`descendant`; any other shape raises `TypeError`. -/
def mkHOGsMap (t : TaxTree) (genomes : List Nat) : Except PErr (Nat × Nat) :=
  match genomes.dedup with
  | [x, y] =>
    if t.isStrictAncestor x y then .ok (x, y)
    else if t.isStrictAncestor y x then .ok (y, x)
    else .error .typeErr
  | _ => .error .typeErr

/-- Claim C2.  `HOGsMap` construction succeeds only with an (ancestor,
descendant) pair drawn from the input set and related by strict ancestry;
two unrelated nodes (siblings), a genome paired with itself (a singleton
set), and a singleton input all raise `TypeError`. -/
theorem mkHOGsMap_spec (t : TaxTree) :
    (∀ genomes a d, mkHOGsMap t genomes = .ok (a, d) →
        t.isStrictAncestor a d ∧ a ∈ genomes ∧ d ∈ genomes)
    ∧ (∀ x y, x ≠ y → ¬ t.isStrictAncestor x y → ¬ t.isStrictAncestor y x →
        mkHOGsMap t [x, y] = .error .typeErr)
    ∧ (∀ g, mkHOGsMap t [g] = .error .typeErr)
    ∧ (∀ g, mkHOGsMap t [g, g] = .error .typeErr) := by
  refine ⟨?_, ?_, ?_, ?_⟩
  · intro genomes a d h
    unfold mkHOGsMap at h
    cases hd : genomes.dedup with
    | nil => rw [hd] at h; cases h
    | cons x l =>
      cases l with
      | nil => rw [hd] at h; cases h
      | cons y l' =>
        cases l' with
        | cons z l'' => rw [hd] at h; cases h
        | nil =>
          rw [hd] at h
          dsimp only at h
          have hx : x ∈ genomes := by
            have : x ∈ genomes.dedup := by rw [hd]; simp
            exact (List.mem_dedup.mp this)
          have hy : y ∈ genomes := by
            have : y ∈ genomes.dedup := by rw [hd]; simp
            exact (List.mem_dedup.mp this)
          by_cases hxy : t.isStrictAncestor x y
          · rw [if_pos hxy] at h
            cases h
            exact ⟨hxy, hx, hy⟩
          · rw [if_neg hxy] at h
            by_cases hyx : t.isStrictAncestor y x
            · rw [if_pos hyx] at h
              cases h
              exact ⟨hyx, hy, hx⟩
            · rw [if_neg hyx] at h
              cases h
  · intro x y hne hxy hyx
    unfold mkHOGsMap
    have hd : ([x, y] : List Nat).dedup = [x, y] := by
      rw [List.dedup_eq_self]
      simp [hne]
    rw [hd]
    simp only [if_neg hxy, if_neg hyx]
  · intro g
    unfold mkHOGsMap
    have hd : ([g] : List Nat).dedup = [g] := by
      rw [List.dedup_eq_self]
      simp
    rw [hd]
  · intro g
    unfold mkHOGsMap
    have hd : ([g, g] : List Nat).dedup = [g] := by
      simp
    rw [hd]

/-- Witness for C2 on the concrete sibling fork used for C10: nodes 1 and
2 are siblings under root 0, and node 0 is a strict ancestor of node 1. -/
theorem mkHOGsMap_spec_witness :
    (mkHOGsMap ⟨fun i => if i = 0 then none else some 0⟩ [1, 0] = .ok (0, 1) →
       TaxTree.isStrictAncestor ⟨fun i => if i = 0 then none else some 0⟩ 0 1
       ∧ 0 ∈ [1, 0] ∧ 1 ∈ [1, 0])
    ∧ mkHOGsMap ⟨fun i => if i = 0 then none else some 0⟩ [1, 2] = .error .typeErr
    ∧ mkHOGsMap ⟨fun i => if i = 0 then none else some 0⟩ [1] = .error .typeErr
    ∧ mkHOGsMap ⟨fun i => if i = 0 then none else some 0⟩ [1, 1] = .error .typeErr :=
  ⟨(mkHOGsMap_spec ⟨fun i => if i = 0 then none else some 0⟩).1 [1, 0] 0 1,
   (mkHOGsMap_spec ⟨fun i => if i = 0 then none else some 0⟩).2.1 1 2 (by decide)
     (by decide) (by decide),
   (mkHOGsMap_spec ⟨fun i => if i = 0 then none else some 0⟩).2.2.1 1,
   (mkHOGsMap_spec ⟨fun i => if i = 0 then none else some 0⟩).2.2.2 1⟩

/-! ## MapVertical and MapLateral (mapper module) -/

/-- The identity of a `HOGsMap` as the aggregate layers see it: its
ancestor and descendant genomes (by taxonomy node). -/
structure HMapRef where
  ancestor : Nat
  descendant : Nat
deriving DecidableEq, Repr

/-- State of a `MapVertical`: at most one wrapped map. -/
structure MapVertical where
  map : Option HMapRef
deriving DecidableEq, Repr

/-- State of a `MapLateral`: the accumulated maps in insertion order; the
recorded ancestor is the first map's. -/
structure MapLateral where
  maps : List HMapRef
deriving DecidableEq, Repr

/-- The ancestor recorded by a `MapLateral`, `none` while it is empty. -/
def MapLateral.ancestor (l : MapLateral) : Option Nat :=
  l.maps.head?.map HMapRef.ancestor

/-- Modelled from the spec: `MapVertical.add_map` of the mapper module,
which is not under `src/`.  Per spec §4.4 it raises `TypeError` on a
non-`HOGsMap` argument or when a map has already been added. -/
def MapVertical.add_map (v : MapVertical) (arg : Arg HMapRef) :
    Except PErr MapVertical :=
  match arg with
  | .badType => .error .typeErr
  | .ok m =>
    match v.map with
    | some _ => .error .typeErr
    | none => .ok ⟨some m⟩

/-- Modelled from the spec: `MapLateral.add_map` of the mapper module,
which is not under `src/`.  Per spec §4.5 it raises `TypeError` on a
non-`HOGsMap` argument or when the new map's ancestor differs from the
ancestor recorded by a previously added map; otherwise it accumulates in
insertion order. -/
def MapLateral.add_map (l : MapLateral) (arg : Arg HMapRef) :
    Except PErr MapLateral :=
  match arg with
  | .badType => .error .typeErr
  | .ok m =>
    match l.maps with
    | [] => .ok ⟨[m]⟩
    | m0 :: _ =>
      if m.ancestor = m0.ancestor then .ok ⟨l.maps ++ [m]⟩
      else .error .typeErr

/-- Claim C8.  Adding a second map to a `MapVertical`, or adding to a
`MapLateral` a map whose ancestor differs from the recorded one, raises
`TypeError`. -/
theorem add_map_spec :
    (∀ v m0 m, v.map = some m0 → MapVertical.add_map v (.ok m) = .error .typeErr)
    ∧ (∀ l a m, MapLateral.ancestor l = some a → m.ancestor ≠ a →
        MapLateral.add_map l (.ok m) = .error .typeErr) := by
  constructor
  · intro v m0 m h0
    unfold MapVertical.add_map
    rw [h0]
  · intro l a m h0 hne
    unfold MapLateral.ancestor at h0
    unfold MapLateral.add_map
    cases hl : l.maps with
    | nil =>
      rw [hl] at h0
      simp at h0
    | cons m0 rest =>
      rw [hl] at h0
      simp only [List.head?_cons, Option.map_some', Option.some.injEq] at h0
      dsimp only
      rw [if_neg (by rw [h0]; exact hne)]

/-- Witness for C8: a loaded `MapVertical` rejects a second map, and a
`MapLateral` holding an ancestor-3 map rejects an ancestor-7 map. -/
theorem add_map_spec_witness :
    MapVertical.add_map ⟨some ⟨3, 4⟩⟩ (.ok ⟨3, 5⟩) = .error .typeErr
    ∧ MapLateral.add_map ⟨[⟨3, 4⟩]⟩ (.ok ⟨7, 5⟩) = .error .typeErr :=
  ⟨add_map_spec.1 ⟨some ⟨3, 4⟩⟩ ⟨3, 4⟩ ⟨3, 5⟩ rfl,
   add_map_spec.2 ⟨[⟨3, 4⟩]⟩ 3 ⟨7, 5⟩ rfl (by decide)⟩

/-! ## HOGsMap upward walk and event classification (mapper module) -/

/-- The gene/HOG forest the walk runs over: each `AbstractGene` (by
identifier) has an optional parent and belongs to a genome at a taxonomy
level. -/
structure AGForest where
  parent : Nat → Option Nat
  level : Nat → Nat

/-- Modelled from the spec: one step of the upward walk of §4.3 step 2 at
one taxonomy level — resolve the enclosing HOG at that level through the
parent link, absence propagating as "no further ancestor". -/
def stepLevel (F : AGForest) (lvl : Nat) : Option Nat → Option Nat
  | none => none
  | some x =>
    match F.parent x with
    | some p => if F.level p = lvl then some p else none
    | none => none

/-- Modelled from the spec: the upward walk of §4.3 step 2 — from an
extant gene, resolve at each intermediate level in turn and terminate at
the ancestor level, yielding the ancestor-level HOG or `none`. -/
def upWalk (F : AGForest) (levels : List Nat) (ancLevel : Nat) (g : Nat) : Option Nat :=
  (levels ++ [ancLevel]).foldl (fun acc lvl => stepLevel F lvl acc) (some g)

/-- The data of a `HOGsMap` after step 2: descendant extant genes,
ancestor-level HOGs, and the computed `upMap`. -/
structure HMap where
  dgenes : List Nat
  ahogs : List Nat
  up : Nat → Option Nat

/-- Modelled from the spec: assemble the `HOGsMap` data, the `upMap` being
the upward walk over the intermediate levels. -/
def mkUpMap (F : AGForest) (levels : List Nat) (ancLevel : Nat)
    (dgenes ahogs : List Nat) : HMap :=
  ⟨dgenes, ahogs, fun g => upWalk F levels ancLevel g⟩

/-- Modelled from the spec, §4.3 step 3: `GAIN` is every descendant gene
whose `upMap` entry is `None`. -/
def GAIN (m : HMap) : List Nat :=
  m.dgenes.filter (fun g => (m.up g).isNone)

/-- Modelled from the spec, §4.3 step 4: the descendant genes mapping to
one ancestor HOG (the inverse of the walk, restricted to non-`None`
entries). -/
def genesOf (m : HMap) (hog : Nat) : List Nat :=
  m.dgenes.filter (fun g => m.up g == some hog)

/-- Modelled from the spec, §4.3 step 5, cardinality 0: `LOSS`. -/
def LOSS (m : HMap) : List Nat :=
  m.ahogs.filter (fun hog => (genesOf m hog).isEmpty)

/-- Modelled from the spec, §4.3 step 5, cardinality 1: `SINGLE`, as the
pairs (ancestor HOG, its one descendant gene). -/
def SINGLE (m : HMap) : List (Nat × Nat) :=
  m.ahogs.filterMap (fun hog =>
    match genesOf m hog with
    | [g] => some (hog, g)
    | _ => none)

/-- Modelled from the spec, §4.3 step 5, cardinality at least 2:
`DUPLICATE`, as the pairs (ancestor HOG, its descendant gene set). -/
def DUPLICATE (m : HMap) : List (Nat × List Nat) :=
  m.ahogs.filterMap (fun hog =>
    if 2 ≤ (genesOf m hog).length then some (hog, genesOf m hog) else none)

/-- Exactly one of three alternatives holds. -/
def ExactlyOne (p q r : Prop) : Prop :=
  (p ∧ ¬ q ∧ ¬ r) ∨ (¬ p ∧ q ∧ ¬ r) ∨ (¬ p ∧ ¬ q ∧ r)

/-- The walk only ever terminates on a node of the ancestor level. -/
theorem upWalk_level {F : AGForest} {levels : List Nat} {ancLevel g h : Nat}
    (hw : upWalk F levels ancLevel g = some h) : F.level h = ancLevel := by
  unfold upWalk at hw
  rw [List.foldl_append] at hw
  simp only [List.foldl_cons, List.foldl_nil] at hw
  cases hacc : ((levels).foldl (fun acc lvl => stepLevel F lvl acc) (some g)) with
  | none => rw [hacc] at hw; cases hw
  | some x =>
    rw [hacc] at hw
    unfold stepLevel at hw
    dsimp only at hw
    cases hp : F.parent x with
    | none => rw [hp] at hw; cases hw
    | some p =>
      rw [hp] at hw
      dsimp only at hw
      by_cases hl : F.level p = ancLevel
      · rw [if_pos hl] at hw
        cases hw
        exact hl
      · rw [if_neg hl] at hw
        cases hw

/-- Membership in the inverse map. -/
theorem mem_genesOf {m : HMap} {hog g : Nat} :
    g ∈ genesOf m hog ↔ g ∈ m.dgenes ∧ m.up g = some hog := by
  unfold genesOf
  rw [List.mem_filter]
  simp

/-- Membership in `GAIN`. -/
theorem mem_GAIN {m : HMap} {g : Nat} :
    g ∈ GAIN m ↔ g ∈ m.dgenes ∧ m.up g = none := by
  unfold GAIN
  rw [List.mem_filter]
  simp [Option.isNone_iff_eq_none]

/-- Membership in `LOSS`. -/
theorem mem_LOSS {m : HMap} {hog : Nat} :
    hog ∈ LOSS m ↔ hog ∈ m.ahogs ∧ genesOf m hog = [] := by
  unfold LOSS
  rw [List.mem_filter]
  simp [List.isEmpty_iff]

/-- Membership in `SINGLE`. -/
theorem mem_SINGLE {m : HMap} {hog g : Nat} :
    (hog, g) ∈ SINGLE m ↔ hog ∈ m.ahogs ∧ genesOf m hog = [g] := by
  unfold SINGLE
  rw [List.mem_filterMap]
  constructor
  · rintro ⟨a, ha, hfa⟩
    cases hgl : genesOf m a with
    | nil => rw [hgl] at hfa; cases hfa
    | cons g0 rest =>
      cases rest with
      | cons g1 rest' => rw [hgl] at hfa; cases hfa
      | nil =>
        rw [hgl] at hfa
        simp only [Option.some.injEq, Prod.mk.injEq] at hfa
        obtain ⟨hah, hg0⟩ := hfa
        subst hah
        subst hg0
        exact ⟨ha, hgl⟩
  · rintro ⟨ha, hgl⟩
    exact ⟨hog, ha, by rw [hgl]⟩

/-- Membership in `DUPLICATE`. -/
theorem mem_DUPLICATE {m : HMap} {hog : Nat} {gs : List Nat} :
    (hog, gs) ∈ DUPLICATE m
      ↔ hog ∈ m.ahogs ∧ gs = genesOf m hog ∧ 2 ≤ (genesOf m hog).length := by
  unfold DUPLICATE
  rw [List.mem_filterMap]
  constructor
  · rintro ⟨a, ha, hfa⟩
    by_cases hlen : 2 ≤ (genesOf m a).length
    · rw [if_pos hlen] at hfa
      simp only [Option.some.injEq, Prod.mk.injEq] at hfa
      obtain ⟨hah, hgs⟩ := hfa
      subst hah
      exact ⟨ha, hgs.symm, hlen⟩
    · rw [if_neg hlen] at hfa
      cases hfa
  · rintro ⟨ha, hgs, hlen⟩
    exact ⟨hog, ha, by rw [if_pos hlen, hgs]⟩

/-- Claim C1.  For a `HOGsMap` built over a forest in which every node of
the ancestor level is an ancestor-genome HOG, the four classification
structures partition the relationships: each ancestor HOG satisfies
exactly one of LOSS membership, being a SINGLE key, being a DUPLICATE key,
and each descendant extant gene satisfies exactly one of GAIN membership,
being the gene of a SINGLE pair, belonging to a DUPLICATE gene set. -/
theorem hogsmap_partition (F : AGForest) (levels : List Nat) (ancLevel : Nat)
    (dgenes ahogs : List Nat)
    (hlev : ∀ x, F.level x = ancLevel → x ∈ ahogs) :
    (∀ hog ∈ (mkUpMap F levels ancLevel dgenes ahogs).ahogs,
        ExactlyOne (hog ∈ LOSS (mkUpMap F levels ancLevel dgenes ahogs))
          (∃ g, (hog, g) ∈ SINGLE (mkUpMap F levels ancLevel dgenes ahogs))
          (∃ gs, (hog, gs) ∈ DUPLICATE (mkUpMap F levels ancLevel dgenes ahogs)))
    ∧ (∀ g ∈ (mkUpMap F levels ancLevel dgenes ahogs).dgenes,
        ExactlyOne (g ∈ GAIN (mkUpMap F levels ancLevel dgenes ahogs))
          (∃ hog, (hog, g) ∈ SINGLE (mkUpMap F levels ancLevel dgenes ahogs))
          (∃ hog gs,
            (hog, gs) ∈ DUPLICATE (mkUpMap F levels ancLevel dgenes ahogs) ∧ g ∈ gs)) := by
  set m := mkUpMap F levels ancLevel dgenes ahogs with hm
  have hup : ∀ g hog, m.up g = some hog → hog ∈ m.ahogs := by
    intro g hog hgh
    have hw : upWalk F levels ancLevel g = some hog := hgh
    exact hlev hog (upWalk_level hw)
  constructor
  · intro hog hmem
    unfold ExactlyOne
    cases hlen : (genesOf m hog).length with
    | zero =>
      have hnil : genesOf m hog = [] := List.length_eq_zero.mp hlen
      refine Or.inl ⟨mem_LOSS.mpr ⟨hmem, hnil⟩, ?_, ?_⟩
      · rintro ⟨g, hsg⟩
        have hone := (mem_SINGLE.mp hsg).2
        rw [hnil] at hone
        cases hone
      · rintro ⟨gs, hdg⟩
        have h2 := (mem_DUPLICATE.mp hdg).2.2
        rw [hlen] at h2
        omega
    | succ n =>
      cases n with
      | zero =>
        obtain ⟨g, hg⟩ := List.length_eq_one.mp hlen
        refine Or.inr (Or.inl ⟨?_, ⟨g, mem_SINGLE.mpr ⟨hmem, hg⟩⟩, ?_⟩)
        · intro hloss
          have hnil := (mem_LOSS.mp hloss).2
          rw [hnil] at hg
          cases hg
        · rintro ⟨gs, hdg⟩
          have h2 := (mem_DUPLICATE.mp hdg).2.2
          rw [hlen] at h2
          omega
      | succ k =>
        have h2 : 2 ≤ (genesOf m hog).length := by rw [hlen]; omega
        refine Or.inr (Or.inr ⟨?_, ?_,
          ⟨genesOf m hog, mem_DUPLICATE.mpr ⟨hmem, rfl, h2⟩⟩⟩)
        · intro hloss
          have hnil := (mem_LOSS.mp hloss).2
          rw [hnil] at hlen
          cases hlen
        · rintro ⟨g, hsg⟩
          have hone := (mem_SINGLE.mp hsg).2
          rw [hone] at hlen
          simp at hlen
  · intro g hg
    unfold ExactlyOne
    cases hu : m.up g with
    | none =>
      refine Or.inl ⟨mem_GAIN.mpr ⟨hg, hu⟩, ?_, ?_⟩
      · rintro ⟨hog, hsg⟩
        have hone := (mem_SINGLE.mp hsg).2
        have hin : g ∈ genesOf m hog := by rw [hone]; simp
        have hsome := (mem_genesOf.mp hin).2
        rw [hu] at hsome
        cases hsome
      · rintro ⟨hog, gs, hdg, hgs⟩
        have hgl := (mem_DUPLICATE.mp hdg).2.1
        have hin : g ∈ genesOf m hog := hgl ▸ hgs
        have hsome := (mem_genesOf.mp hin).2
        rw [hu] at hsome
        cases hsome
    | some hog =>
      have hhog : hog ∈ m.ahogs := hup g hog hu
      have hgin : g ∈ genesOf m hog := mem_genesOf.mpr ⟨hg, hu⟩
      by_cases h1 : (genesOf m hog).length = 1
      · obtain ⟨g0, hg0⟩ := List.length_eq_one.mp h1
        have hgg0 : g = g0 := by
          rw [hg0] at hgin
          simpa using hgin
        subst hgg0
        refine Or.inr (Or.inl ⟨?_, ⟨hog, mem_SINGLE.mpr ⟨hhog, hg0⟩⟩, ?_⟩)
        · intro hgain
          have hnone := (mem_GAIN.mp hgain).2
          rw [hu] at hnone
          cases hnone
        · rintro ⟨hog', gs, hdg, hgs⟩
          have hgl := (mem_DUPLICATE.mp hdg).2.1
          have h2 := (mem_DUPLICATE.mp hdg).2.2
          have hin' : g ∈ genesOf m hog' := hgl ▸ hgs
          have hu' := (mem_genesOf.mp hin').2
          rw [hu] at hu'
          injection hu' with hh
          rw [← hh] at h2
          omega
      · have hpos : 0 < (genesOf m hog).length := List.length_pos_of_mem hgin
        have h2 : 2 ≤ (genesOf m hog).length := by omega
        refine Or.inr (Or.inr ⟨?_, ?_,
          ⟨hog, genesOf m hog, mem_DUPLICATE.mpr ⟨hhog, rfl, h2⟩, hgin⟩⟩)
        · intro hgain
          have hnone := (mem_GAIN.mp hgain).2
          rw [hu] at hnone
          cases hnone
        · rintro ⟨hog', hsg⟩
          have hone := (mem_SINGLE.mp hsg).2
          have hin' : g ∈ genesOf m hog' := by rw [hone]; simp
          have hu' := (mem_genesOf.mp hin').2
          rw [hu] at hu'
          injection hu' with hh
          rw [← hh] at hone
          rw [hone] at h2
          simp at h2

/-- A concrete two-gene forest for the partition witness: gene 1 has
parent HOG 10 at level 5, gene 2 has no parent; HOGs 10 and 11 are the
ancestor genome. -/
def forestW : AGForest :=
  ⟨fun x => if x = 1 then some 10 else none, fun x => if x = 10 then 5 else 0⟩

/-- Witness for C1 on `forestW`: gene 1 maps to HOG 10 (SINGLE), gene 2 is
a GAIN, HOG 11 is a LOSS. -/
theorem hogsmap_partition_witness :
    (∀ x, forestW.level x = 5 → x ∈ [10, 11])
    ∧ ((∀ hog ∈ (mkUpMap forestW [] 5 [1, 2] [10, 11]).ahogs,
          ExactlyOne (hog ∈ LOSS (mkUpMap forestW [] 5 [1, 2] [10, 11]))
            (∃ g, (hog, g) ∈ SINGLE (mkUpMap forestW [] 5 [1, 2] [10, 11]))
            (∃ gs, (hog, gs) ∈ DUPLICATE (mkUpMap forestW [] 5 [1, 2] [10, 11])))
       ∧ (∀ g ∈ (mkUpMap forestW [] 5 [1, 2] [10, 11]).dgenes,
            ExactlyOne (g ∈ GAIN (mkUpMap forestW [] 5 [1, 2] [10, 11]))
              (∃ hog, (hog, g) ∈ SINGLE (mkUpMap forestW [] 5 [1, 2] [10, 11]))
              (∃ hog gs,
                (hog, gs) ∈ DUPLICATE (mkUpMap forestW [] 5 [1, 2] [10, 11]) ∧ g ∈ gs))) := by
  have hlev : ∀ x, forestW.level x = 5 → x ∈ [10, 11] := by
    intro x hx
    by_cases h10 : x = 10
    · subst h10
      simp
    · exfalso
      have hx0 : (if x = 10 then (5 : Nat) else 0) = 5 := hx
      rw [if_neg h10] at hx0
      cases hx0
  exact ⟨hlev, hogsmap_partition forestW [] 5 [1, 2] [10, 11] hlev⟩
